/-
  Verification of stdgif (stdgif/stdgif.py) against its specification.

  The Python source is shallowly embedded below.  Machine integers are
  modelled as `Nat` (Python 2 ints are unbounded; `& 255` becomes `% 256`,
  `~k & 0xffffffff` becomes `0xffffffff ^^^ k` which agrees for the 32-bit
  registry keys); Python 2 integer division `/` on ints becomes `Nat`
  division; `fractions.Fraction` becomes `ℚ`; Python 2 `round` (half away
  from zero, and all values here are nonnegative) becomes Mathlib `round`
  (`⌊x + 1/2⌋`).  An image is a total pixel function; `handle_pixel` reads
  only coordinates inside the clipped block, exactly like the source.
-/
import Mathlib

set_option maxHeartbeats 1000000
set_option autoImplicit false

/-- An RGBA pixel as returned by `img.getpixel`: four unbounded integer
channel samples (the source only ever reads the first three). -/
structure Pixel where
  r : Nat
  g : Nat
  b : Nat
  a : Nat
deriving DecidableEq, Repr, Inhabited

/-- `rgba[channel]` for `channel in range(0, 3)`: channel 0 is red, 1 green,
2 blue.  (Indices ≥ 3 never occur in the embedded loops.) -/
def channel (p : Pixel) : Nat → Nat
  | 0 => p.r
  | 1 => p.g
  | _ => p.b

/-- A decoded frame: pixel grid accessed by `img.getpixel((i, j))`. -/
abbrev Img := Nat → Nat → Pixel

/-- The glyph registry `BITMAPS`: 32-bit coverage pattern ↦ glyph, in source
order.  All 47 keys are distinct, so the Python dict holds exactly these
pairs. -/
def BITMAPS : List (Nat × Char) :=
  [ (0x00000000, ' '),
    -- Block graphics
    (0x0000000f, Char.ofNat 0x2581),  -- lower 1/8
    (0x000000ff, Char.ofNat 0x2582),  -- lower 1/4
    (0x00000fff, Char.ofNat 0x2583),
    (0x0000ffff, Char.ofNat 0x2584),  -- lower 1/2
    (0x000fffff, Char.ofNat 0x2585),
    (0x00ffffff, Char.ofNat 0x2586),  -- lower 3/4
    (0x0fffffff, Char.ofNat 0x2587),
    (0xeeeeeeee, Char.ofNat 0x258a),  -- left 3/4
    (0xcccccccc, Char.ofNat 0x258c),  -- left 1/2
    (0x88888888, Char.ofNat 0x258e),  -- left 1/4
    (0x0000cccc, Char.ofNat 0x2596),  -- quadrant lower left
    (0x00003333, Char.ofNat 0x2597),  -- quadrant lower right
    (0xcccc0000, Char.ofNat 0x2598),  -- quadrant upper left
    (0xcccc3333, Char.ofNat 0x259a),  -- diagonal 1/2
    (0x33330000, Char.ofNat 0x259d),  -- quadrant upper right
    -- Line drawing subset
    (0x000ff000, Char.ofNat 0x2501),  -- heavy horizontal
    (0x66666666, Char.ofNat 0x2503),  -- heavy vertical
    (0x00077666, Char.ofNat 0x250f),  -- heavy down and right
    (0x000ee666, Char.ofNat 0x2513),  -- heavy down and left
    (0x66677000, Char.ofNat 0x2517),  -- heavy up and right
    (0x666ee000, Char.ofNat 0x251b),  -- heavy up and left
    (0x66677666, Char.ofNat 0x2523),  -- heavy vertical and right
    (0x666ee666, Char.ofNat 0x252b),  -- heavy vertical and left
    (0x000ff666, Char.ofNat 0x2533),  -- heavy down and horizontal
    (0x666ff000, Char.ofNat 0x253b),  -- heavy up and horizontal
    (0x666ff666, Char.ofNat 0x254b),  -- heavy cross
    (0x000cc000, Char.ofNat 0x2578),  -- bold horizontal left
    (0x00033000, Char.ofNat 0x257a),  -- bold horizontal right
    (0x06600660, Char.ofNat 0x254f),  -- heavy double dash vertical
    (0x000f0000, Char.ofNat 0x2500),  -- light horizontal
    (0x0000f000, Char.ofNat 0x2500),
    (0x000e0000, Char.ofNat 0x2574),  -- light left
    (0x0000e000, Char.ofNat 0x2574),  -- light left
    (0x44440000, Char.ofNat 0x2575),  -- light up
    (0x22220000, Char.ofNat 0x2575),  -- light up
    (0x00030000, Char.ofNat 0x2576),  -- light right
    (0x00003000, Char.ofNat 0x2576),  -- light right
    (0x00004444, Char.ofNat 0x2575),  -- light down
    (0x00002222, Char.ofNat 0x2575),  -- light down
    -- Misc technical
    (0x44444444, Char.ofNat 0x23a2),  -- [ extension
    (0x22222222, Char.ofNat 0x23a5),  -- ] extension
    (0x0f000000, Char.ofNat 0x23ba),  -- horizontal scanline 1
    (0x00f00000, Char.ofNat 0x23bb),  -- horizontal scanline 3
    (0x00000f00, Char.ofNat 0x23bc),  -- horizontal scanline 7
    (0x000000f0, Char.ofNat 0x23bd),  -- horizontal scanline 9
    -- Geometrical shapes
    (0x00066000, Char.ofNat 0x25aa) ] -- black small square

/-- `esc(*args)`: `'\x1b[' + ';'.join(str(arg) for arg in args) + 'sm'`. -/
def esc (args : List Nat) : String :=
  "\x1b[" ++ String.intercalate ";" (args.map toString) ++ "sm"

/-- `make_char(c, fg, bg)`.  The colors arrive as 3-element lists of channel
averages; out-of-range indexing (impossible on reachable inputs, see
`background_set_nonempty`) is modelled by `getD _ 0`. -/
def make_char (c : Char) (fg bg : List Nat) : String :=
  if fg.getD 0 0 = 0 ∧ fg.getD 1 0 = 0 ∧ fg.getD 2 0 = 0 ∧
     bg.getD 0 0 = 0 ∧ bg.getD 1 0 = 0 ∧ bg.getD 2 0 = 0 then
    "\x1b[0m "
  else
    esc [38, 2, fg.getD 0 0, fg.getD 1 0, fg.getD 2 0] ++
    esc [48, 2, bg.getD 0 0, bg.getD 1 0, bg.getD 2 0] ++
    c.toString

/-- Fueled binary bit count: `popCountAux fuel n` is the number of 1 bits of
`n` whenever `n < 2 ^ fuel`. -/
def popCountAux : Nat → Nat → Nat
  | 0, _ => 0
  | fuel + 1, n => if n = 0 then 0 else n % 2 + popCountAux fuel (n / 2)

/-- `bin(x).count('1')`: the number of 1 bits of `x`.  Fuel 64 is exact for
every value below `2 ^ 64`; every bitmap handled by the program is a 32-bit
value. -/
def popCount (n : Nat) : Nat := popCountAux 64 n

/-- `sys.maxint` on a 64-bit CPython 2 build: the initial best-distance
sentinel of the glyph matching loop. -/
def maxint : Nat := 2 ^ 63 - 1

/-- `x_offset = min(x + 4, w)`. -/
def xOffset (w x : Nat) : Nat := min (x + 4) w

/-- `y_offset = min(y + 8, h)`. -/
def yOffset (h y : Nat) : Nat := min (y + 8) h

/-- `range(x, x_offset)`: the block's column indices. -/
def colIdx (w x : Nat) : List Nat := List.range' x (xOffset w x - x)

/-- `range(y, y_offset)`: the block's row indices. -/
def rowIdx (h y : Nat) : List Nat := List.range' y (yOffset h y - y)

/-- The min/max scan of `handle_pixel` runs one nested `for i: for j:` loop
updating a running extremum; each extremum is that nested left fold. -/
def foldMin2 (outer inner : List Nat) (g : Nat → Nat → Nat) (init : Nat) : Nat :=
  outer.foldl (fun m i => inner.foldl (fun m j => min m (g i j)) m) init

/-- Nested `for i: for j:` fold for the running maximum. -/
def foldMax2 (outer inner : List Nat) (g : Nat → Nat → Nat) (init : Nat) : Nat :=
  outer.foldl (fun m i => inner.foldl (fun m j => max m (g i j)) m) init

/-- `max_rgb[c]` after the scan loop (initialised to `[0, 0, 0]`). -/
def maxRgb (img : Img) (w h x y c : Nat) : Nat :=
  foldMax2 (colIdx w x) (rowIdx h y) (fun i j => channel (img i j) c) 0

/-- `min_rgb[c]` after the scan loop (initialised to `[255, 255, 255]`). -/
def minRgb (img : Img) (w h x y c : Nat) : Nat :=
  foldMin2 (colIdx w x) (rowIdx h y) (fun i j => channel (img i j) c) 255

/-- `max_rgb[c] - min_rgb[c]` for the block (`Nat` subtraction; for a
non-empty block with byte-sized samples the minimum never exceeds the
maximum, so this is the genuine channel range). -/
def chRange (img : Img) (w h x y c : Nat) : Nat :=
  maxRgb img w h x y c - minRgb img w h x y c

/-- The split-channel selection loop: start from `split_channel = 0`,
`best_split = 0` and take each channel whose range strictly beats the best
so far. -/
def splitAcc (r : Nat → Nat) : Nat × Nat :=
  [0, 1, 2].foldl (fun st c => if r c > st.2 then (c, r c) else st) (0, 0)

/-- `split_channel` for the block. -/
def splitChannel (img : Img) (w h x y : Nat) : Nat :=
  (splitAcc (chRange img w h x y)).1

/-- `best_split` for the block. -/
def bestSplit (img : Img) (w h x y : Nat) : Nat :=
  (splitAcc (chRange img w h x y)).2

/-- `split_val = min_rgb[split_channel] + best_split / 2` (Python 2 `/` on
ints is floor division). -/
def splitVal (img : Img) (w h x y : Nat) : Nat :=
  minRgb img w h x y (splitChannel img w h x y) + bestSplit img w h x y / 2

/-- The block's pixels in the order of the bitmap loop: `for j: for i:`,
i.e. row-major, top row first, left to right. -/
def blockPixels (img : Img) (w h x y : Nat) : List Pixel :=
  (rowIdx h y).flatMap (fun j => (colIdx w x).map (fun i => img i j))

/-- The foreground test: `int(num) > split_val` where
`num = rgba[split_channel] & 255`. -/
def isFg (sc sv : Nat) (p : Pixel) : Bool := channel p sc % 256 > sv

/-- The coverage bitmap: `bits = bits << 1` then `bits |= 1` on a foreground
pixel, over the row-major pixel sequence. -/
def bitsOf (f : Pixel → Bool) (ps : List Pixel) : Nat :=
  ps.foldl (fun b p => 2 * b + (if f p then 1 else 0)) 0

/-- `fg_color`: the foreground pixels in visit order. -/
def fgPixels (img : Img) (w h x y : Nat) : List Pixel :=
  (blockPixels img w h x y).filter
    (isFg (splitChannel img w h x y) (splitVal img w h x y))

/-- `bg_color`: the background pixels in visit order. -/
def bgPixels (img : Img) (w h x y : Nat) : List Pixel :=
  (blockPixels img w h x y).filter
    (fun p => !(isFg (splitChannel img w h x y) (splitVal img w h x y) p))

/-- The channel-wise floor mean `[sum(color) / len(color) for color in
zip(*pixels)]` of a non-empty pixel list. -/
def channelMeans (l : List Pixel) : List Nat :=
  [(l.map Pixel.r).sum / l.length,
   (l.map Pixel.g).sum / l.length,
   (l.map Pixel.b).sum / l.length]

/-- The list-comprehension average: `zip(*[])` is empty, so an empty pixel
list yields the empty list of averages. -/
def avgRgb (l : List Pixel) : List Nat :=
  if l = [] then [] else channelMeans l

/-- Lines 229–236 of the source: compute both averages, default an empty
foreground average to black, and then the slip at line 236 — on an empty
*background* average the source again assigns `avg_fg_rgb`, leaving
`avg_bg_rgb` untouched. -/
def finalAvgs (fg bg : List Pixel) : List Nat × List Nat :=
  let afg0 := avgRgb fg
  let abg0 := avgRgb bg
  let afg1 := if afg0 = [] then [0, 0, 0] else afg0
  let afg2 := if abg0 = [] then [0, 0, 0] else afg1
  (afg2, abg0)

/-- One iteration of the glyph matching loop: try the pattern directly, then
inverted within 32 bits (`~bitmap & 0xffffffff`), keeping each on a strict
improvement of the best distance. -/
def matchStep (bits : Nat) (st : Nat × Option Char × Bool) (e : Nat × Char) :
    Nat × Option Char × Bool :=
  let diff := popCount (e.1 ^^^ bits)
  let st1 := if diff < st.1 then (diff, some e.2, false) else st
  let diff2 := popCount ((0xffffffff ^^^ e.1) ^^^ bits)
  if diff2 < st1.1 then (diff2, some e.2, true) else st1

/-- The glyph matching loop over the registry, starting from the
`sys.maxint` sentinel with no character chosen and `inverted = False`. -/
def matchLoop (bits : Nat) : Nat × Option Char × Bool :=
  BITMAPS.foldl (matchStep bits) (maxint, none, false)

/-- The two Hamming distances a registry entry contributes: direct and
against the 32-bit complement of the pattern. -/
def pairDists (bits : Nat) (e : Nat × Char) : List Nat :=
  [popCount (e.1 ^^^ bits), popCount ((0xffffffff ^^^ e.1) ^^^ bits)]

/-- All `2 × |registry|` Hamming distances for a coverage bitmap. -/
def allDists (bits : Nat) : List Nat := BITMAPS.flatMap (pairDists bits)

/-- The minimum of all pattern distances, direct and inverted. -/
def minDist (bits : Nat) : Nat := (allDists bits).foldl min maxint

/-- The five-glyph shading ramp `u' ░▒▓█'`. -/
def shadeRamp : List Char :=
  [' ', Char.ofNat 0x2591, Char.ofNat 0x2592, Char.ofNat 0x2593, Char.ofNat 0x2588]

/-- The density fallback glyph: ramp index `min(4, len(fg_color) * 5 / 32)`
(floor division). -/
def rampChar (fgCount : Nat) : Char :=
  shadeRamp.getD (min 4 (fgCount * 5 / 32)) ' '

/-- The glyph/inversion decision after the matching loop: keep the loop's
winner unless its best distance exceeds 10, in which case take the density
ramp glyph and clear the inversion flag. -/
def selectGlyph (bits fgCount : Nat) : Char × Bool :=
  let st := matchLoop bits
  if st.1 > 10 then (rampChar fgCount, false) else (st.2.1.getD ' ', st.2.2)

/-- `bits` after the bitmap loop: the block's coverage bitmap. -/
def blockBits (img : Img) (w h x y : Nat) : Nat :=
  bitsOf (isFg (splitChannel img w h x y) (splitVal img w h x y))
    (blockPixels img w h x y)

/-- `handle_pixel(img, x, y)` (with the image size passed explicitly):
one pixel block to one escaped character cell.  The final `if inverted:`
swap of the two average colors precedes `make_char`. -/
def handle_pixel (img : Img) (w h x y : Nat) : String :=
  let av := finalAvgs (fgPixels img w h x y) (bgPixels img w h x y)
  let ci := selectGlyph (blockBits img w h x y) (fgPixels img w h x y).length
  let fgbg := if ci.2 then (av.2, av.1) else (av.1, av.2)
  make_char ci.1 fgbg.1 fgbg.2

/-- `range(0, h, 8)`: the starting pixel row of each text row of a frame;
there are `⌈h / 8⌉` of them. -/
def blockRowStarts (h : Nat) : List Nat := List.range' 0 ((h + 7) / 8) 8

/-- `range(0, w, 4)`: the starting pixel column of each cell of a text
row. -/
def blockColStarts (w : Nat) : List Nat := List.range' 0 ((w + 3) / 4) 4

/-- The rows generator of `frame_to_ansi`: one text row per block of 8 pixel
rows, each the concatenation of the `handle_pixel` cells. -/
def frameLines (img : Img) (w h : Nat) : List String :=
  (blockRowStarts h).map
    (fun y => String.join ((blockColStarts w).map (fun x => handle_pixel img w h x y)))

/-- `frame_to_ansi`: style reset, then the newline-joined rows. -/
def frame_to_ansi (img : Img) (w h : Nat) : String :=
  "\x1b[0m" ++ String.intercalate "\n" (frameLines img w h)

/-- The quantity interpolated into the cursor-rewind escape
`'\r\x1b[{h}A'` of the playback loop: `h = new_size[1]`, the resized
image's pixel height. -/
def rewindCount (newHeight : Nat) : Nat := newHeight

/-- The text printed per frame by the interactive playback loop:
`'\r\x1b[{h}A{frame}{sep}'`. -/
def framePrint (newHeight : Nat) (frame sep : String) : String :=
  "\r\x1b[" ++ toString (rewindCount newHeight) ++ "A" ++ frame ++ sep

/-- `calculate_borders(bounding_width, bounding_height, original_width,
original_height)`: exact `Fraction` arithmetic, rounded to nearest and
clamped to the bounds. -/
def calculate_borders (bw bh ow oh : Nat) : Int × Int :=
  let originalRatio : ℚ := (ow : ℚ) / (oh : ℚ)
  let boundingRatio : ℚ := (bw : ℚ) / (bh : ℚ)
  if boundingRatio < originalRatio then
    let newHeight : ℚ := (bw : ℚ) / originalRatio
    let newWidth : ℚ := newHeight * originalRatio
    (min (round newWidth) (bw : Int), min (round newHeight) (bh : Int))
  else
    let newWidth : ℚ := (bh : ℚ) * originalRatio
    let newHeight : ℚ := ((oh : ℚ) / (ow : ℚ)) * newWidth
    (min (round newWidth) (bw : Int), min (round newHeight) (bh : Int))

/-- Observable events of the interactive playback loop. -/
inductive PlayEvent where
  | frameOut (idx : Nat)
  | restore
deriving DecidableEq, Repr

/-- The frames actually printed by the `for frame in frames:` loop before it
stops: all of them on a normal run, frames `0..k` when a keyboard interrupt
arrives during frame `k`'s inter-frame delay. -/
def interactiveLoop (nFrames : Nat) (interruptAt : Option Nat) : List PlayEvent :=
  match interruptAt with
  | none => (List.range nFrames).map PlayEvent.frameOut
  | some k => (List.range (min (k + 1) nFrames)).map PlayEvent.frameOut

/-- The `with RestoredTerminal():` block: `__exit__` prints the
terminal-restoration escapes after the body, on normal fall-through and on a
propagating exception alike. -/
def runWithRestoredTerminal (body : List PlayEvent) : List PlayEvent :=
  body ++ [PlayEvent.restore]

/-- Interactive playback (`os.isatty` branch of `main`): the loop inside the
scope guard, the `except KeyboardInterrupt: sys.exit(128)` handler, exit
status 0 on normal return. -/
def playback (nFrames : Nat) (interruptAt : Option Nat) : List PlayEvent × Nat :=
  (runWithRestoredTerminal (interactiveLoop nFrames interruptAt),
   match interruptAt with
   | none => 0
   | some _ => 128)

/-! ### Fold helpers for the extremum scan loops -/

theorem foldl_min_le_init {α : Type} (l : List α) (f : α → Nat) (init : Nat) :
    l.foldl (fun m a => min m (f a)) init ≤ init := by
  induction l generalizing init with
  | nil => simp
  | cons a l ih => exact le_trans (ih _) (Nat.min_le_left _ _)

theorem foldl_min_le_mem {α : Type} (l : List α) (f : α → Nat) (init : Nat) (a : α)
    (ha : a ∈ l) : l.foldl (fun m b => min m (f b)) init ≤ f a := by
  induction l generalizing init with
  | nil => cases ha
  | cons b l ih =>
    rcases List.mem_cons.mp ha with h | h
    · subst h
      exact le_trans (foldl_min_le_init l f _) (Nat.min_le_right _ _)
    · exact ih _ h

theorem foldl_min_attained {α : Type} (l : List α) (f : α → Nat) (init : Nat) :
    l.foldl (fun m b => min m (f b)) init = init ∨
      ∃ a ∈ l, l.foldl (fun m b => min m (f b)) init = f a := by
  induction l generalizing init with
  | nil => exact Or.inl rfl
  | cons b l ih =>
    rcases ih (min init (f b)) with h | ⟨a, ha, h⟩
    · by_cases hle : init ≤ f b
      · exact Or.inl (by simpa [Nat.min_eq_left hle] using h)
      · refine Or.inr ⟨b, List.mem_cons_self .., ?_⟩
        simpa [Nat.min_eq_right (le_of_not_le hle)] using h
    · exact Or.inr ⟨a, List.mem_cons_of_mem _ ha, h⟩

theorem foldl_max_ge_init {α : Type} (l : List α) (f : α → Nat) (init : Nat) :
    init ≤ l.foldl (fun m a => max m (f a)) init := by
  induction l generalizing init with
  | nil => simp
  | cons a l ih => exact le_trans (Nat.le_max_left _ _) (ih _)

theorem foldl_max_ge_mem {α : Type} (l : List α) (f : α → Nat) (init : Nat) (a : α)
    (ha : a ∈ l) : f a ≤ l.foldl (fun m b => max m (f b)) init := by
  induction l generalizing init with
  | nil => cases ha
  | cons b l ih =>
    rcases List.mem_cons.mp ha with h | h
    · subst h
      exact le_trans (Nat.le_max_right _ _) (foldl_max_ge_init l f _)
    · exact ih _ h

theorem foldl_max_attained {α : Type} (l : List α) (f : α → Nat) (init : Nat) :
    l.foldl (fun m b => max m (f b)) init = init ∨
      ∃ a ∈ l, l.foldl (fun m b => max m (f b)) init = f a := by
  induction l generalizing init with
  | nil => exact Or.inl rfl
  | cons b l ih =>
    rcases ih (max init (f b)) with h | ⟨a, ha, h⟩
    · by_cases hle : f b ≤ init
      · exact Or.inl (by simpa [Nat.max_eq_left hle] using h)
      · refine Or.inr ⟨b, List.mem_cons_self .., ?_⟩
        simpa [Nat.max_eq_right (le_of_not_le hle)] using h
    · exact Or.inr ⟨a, List.mem_cons_of_mem _ ha, h⟩

theorem foldMin2_le_init (outer inner : List Nat) (g : Nat → Nat → Nat)
    (init : Nat) : foldMin2 outer inner g init ≤ init := by
  induction outer generalizing init with
  | nil => simp [foldMin2]
  | cons b out ih =>
    exact le_trans (ih _) (foldl_min_le_init inner (g b) init)

theorem foldMin2_le_mem (outer inner : List Nat) (g : Nat → Nat → Nat)
    (init : Nat) (i j : Nat) (hi : i ∈ outer) (hj : j ∈ inner) :
    foldMin2 outer inner g init ≤ g i j := by
  induction outer generalizing init with
  | nil => cases hi
  | cons b out ih =>
    rcases List.mem_cons.mp hi with h | h
    · subst h
      exact le_trans (foldMin2_le_init out inner g _)
        (foldl_min_le_mem inner (g i) init j hj)
    · exact ih _ h

theorem foldMin2_attained (outer inner : List Nat) (g : Nat → Nat → Nat)
    (init : Nat) : foldMin2 outer inner g init = init ∨
      ∃ i ∈ outer, ∃ j ∈ inner, foldMin2 outer inner g init = g i j := by
  induction outer generalizing init with
  | nil => exact Or.inl rfl
  | cons b out ih =>
    rcases ih (inner.foldl (fun m j => min m (g b j)) init) with h | ⟨i, hi, j, hj, h⟩
    · rcases foldl_min_attained inner (g b) init with h' | ⟨j, hj, h'⟩
      · exact Or.inl (by rw [foldMin2] at h ⊢; simpa [h'] using h)
      · refine Or.inr ⟨b, List.mem_cons_self .., j, hj, ?_⟩
        rw [foldMin2] at h ⊢
        simpa [h'] using h
    · exact Or.inr ⟨i, List.mem_cons_of_mem _ hi, j, hj, h⟩

theorem foldMax2_ge_init (outer inner : List Nat) (g : Nat → Nat → Nat)
    (init : Nat) : init ≤ foldMax2 outer inner g init := by
  induction outer generalizing init with
  | nil => simp [foldMax2]
  | cons b out ih =>
    exact le_trans (foldl_max_ge_init inner (g b) init) (ih _)

theorem foldMax2_ge_mem (outer inner : List Nat) (g : Nat → Nat → Nat)
    (init : Nat) (i j : Nat) (hi : i ∈ outer) (hj : j ∈ inner) :
    g i j ≤ foldMax2 outer inner g init := by
  induction outer generalizing init with
  | nil => cases hi
  | cons b out ih =>
    rcases List.mem_cons.mp hi with h | h
    · subst h
      exact le_trans (foldl_max_ge_mem inner (g i) init j hj)
        (foldMax2_ge_init out inner g _)
    · exact ih _ h

theorem foldMax2_attained (outer inner : List Nat) (g : Nat → Nat → Nat)
    (init : Nat) : foldMax2 outer inner g init = init ∨
      ∃ i ∈ outer, ∃ j ∈ inner, foldMax2 outer inner g init = g i j := by
  induction outer generalizing init with
  | nil => exact Or.inl rfl
  | cons b out ih =>
    rcases ih (inner.foldl (fun m j => max m (g b j)) init) with h | ⟨i, hi, j, hj, h⟩
    · rcases foldl_max_attained inner (g b) init with h' | ⟨j, hj, h'⟩
      · exact Or.inl (by rw [foldMax2] at h ⊢; simpa [h'] using h)
      · refine Or.inr ⟨b, List.mem_cons_self .., j, hj, ?_⟩
        rw [foldMax2] at h ⊢
        simpa [h'] using h
    · exact Or.inr ⟨i, List.mem_cons_of_mem _ hi, j, hj, h⟩

/-! ### Block index and membership facts -/

theorem mem_colIdx {w x i : Nat} : i ∈ colIdx w x ↔ x ≤ i ∧ i < xOffset w x := by
  simp only [colIdx, List.mem_range'_1]
  omega

theorem mem_rowIdx {h y j : Nat} : j ∈ rowIdx h y ↔ y ≤ j ∧ j < yOffset h y := by
  simp only [rowIdx, List.mem_range'_1]
  omega

theorem mem_blockPixels {img : Img} {w h x y : Nat} {p : Pixel} :
    p ∈ blockPixels img w h x y ↔
      ∃ i j, (x ≤ i ∧ i < xOffset w x) ∧ (y ≤ j ∧ j < yOffset h y) ∧
        p = img i j := by
  simp only [blockPixels, List.mem_flatMap, List.mem_map, mem_colIdx, mem_rowIdx]
  constructor
  · rintro ⟨j, hj, i, hi, rfl⟩
    exact ⟨i, j, hi, hj, rfl⟩
  · rintro ⟨i, j, hi, hj, rfl⟩
    exact ⟨j, hj, i, hi, rfl⟩

theorem corner_mem_blockPixels {img : Img} {w h x y : Nat}
    (hx : x < w) (hy : y < h) : img x y ∈ blockPixels img w h x y := by
  refine mem_blockPixels.mpr ⟨x, y, ⟨le_refl x, ?_⟩, ⟨le_refl y, ?_⟩, rfl⟩
  · simp only [xOffset]
    omega
  · simp only [yOffset]
    omega

theorem blockPixels_ne_nil {img : Img} {w h x y : Nat}
    (hx : x < w) (hy : y < h) : blockPixels img w h x y ≠ [] :=
  List.ne_nil_of_mem (corner_mem_blockPixels hx hy)

/-- Validity of a decoded frame: every channel sample inside the frame is a
byte. -/
abbrev ValidImg (img : Img) (w h : Nat) : Prop :=
  ∀ i, i < w → ∀ j, j < h →
    (img i j).r ≤ 255 ∧ (img i j).g ≤ 255 ∧ (img i j).b ≤ 255

theorem channel_le_of_valid {img : Img} {w h : Nat} (hv : ValidImg img w h)
    {i j : Nat} (hi : i < w) (hj : j < h) (c : Nat) :
    channel (img i j) c ≤ 255 := by
  obtain ⟨h1, h2, h3⟩ := hv i hi j hj
  match c with
  | 0 => exact h1
  | 1 => exact h2
  | n + 2 => exact h3

theorem channel_le_of_mem {img : Img} {w h x y : Nat} (hv : ValidImg img w h)
    {p : Pixel} (hp : p ∈ blockPixels img w h x y) (c : Nat) :
    channel p c ≤ 255 := by
  obtain ⟨i, j, hi, hj, rfl⟩ := mem_blockPixels.mp hp
  refine channel_le_of_valid hv ?_ ?_ c
  · have := hi.2
    simp only [xOffset] at this
    omega
  · have := hj.2
    simp only [yOffset] at this
    omega

/-! ### The split-channel selection loop -/

theorem splitAcc_spec (r : Nat → Nat) :
    (splitAcc r).1 < 3 ∧ (splitAcc r).2 = r (splitAcc r).1 ∧
      (∀ c, c < 3 → r c ≤ (splitAcc r).2) ∧
      (∀ c, c < (splitAcc r).1 → r c < (splitAcc r).2) := by
  simp only [splitAcc, List.foldl_cons, List.foldl_nil]
  have h0 : (if r 0 > (0, 0).2 then ((0 : Nat), r 0) else ((0 : Nat), (0 : Nat)))
      = (0, r 0) := by
    split
    · rfl
    · simp only [Prod.mk.injEq, true_and]
      omega
  rw [h0]
  by_cases h1 : r 1 > r 0
  · rw [if_pos h1]
    by_cases h2 : r 2 > r 1
    · rw [if_pos h2]
      refine ⟨by omega, rfl, ?_, ?_⟩ <;> intro c hc <;> interval_cases c <;> omega
    · rw [if_neg h2]
      refine ⟨by omega, rfl, ?_, ?_⟩ <;> intro c hc <;> interval_cases c <;> omega
  · rw [if_neg h1]
    by_cases h2 : r 2 > r 0
    · rw [if_pos h2]
      refine ⟨by omega, rfl, ?_, ?_⟩ <;> intro c hc <;> interval_cases c <;> omega
    · rw [if_neg h2]
      refine ⟨by omega, rfl, ?_, ?_⟩ <;> intro c hc <;> interval_cases c <;> omega

/-! ### The coverage bitmap fold -/

theorem bitsOf_concat (f : Pixel → Bool) (qs : List Pixel) (p : Pixel) :
    bitsOf f (qs ++ [p]) = 2 * bitsOf f qs + (if f p then 1 else 0) := by
  simp [bitsOf, List.foldl_append]

theorem bitsOf_lt (f : Pixel → Bool) (ps : List Pixel) :
    bitsOf f ps < 2 ^ ps.length := by
  induction ps using List.reverseRecOn with
  | nil => simp [bitsOf]
  | append_singleton qs p ih =>
    rw [bitsOf_concat]
    have : (if f p then 1 else 0) ≤ 1 := by split <;> omega
    simp only [List.length_append, List.length_singleton]
    have hpow : 2 ^ (qs.length + 1) = 2 * 2 ^ qs.length := by ring
    omega

theorem bitsOf_testBit (f : Pixel → Bool) (ps : List Pixel) :
    ∀ k, k < ps.length →
      (bitsOf f ps).testBit (ps.length - 1 - k) = f (ps.getD k ⟨0, 0, 0, 0⟩) := by
  induction ps using List.reverseRecOn with
  | nil => intro k hk; cases hk
  | append_singleton qs p ih =>
    intro k hk
    rw [bitsOf_concat]
    simp only [List.length_append, List.length_singleton] at hk ⊢
    rcases Nat.lt_or_ge k qs.length with hlt | hge
    · have hidx : qs.length + 1 - 1 - k = (qs.length - 1 - k) + 1 := by omega
      rw [hidx, Nat.testBit_add_one]
      have hdiv : (2 * bitsOf f qs + (if f p then 1 else 0)) / 2 = bitsOf f qs := by
        split <;> omega
      rw [hdiv]
      have hget : (qs ++ [p]).getD k ⟨0, 0, 0, 0⟩ = qs.getD k ⟨0, 0, 0, 0⟩ := by
        simp only [List.getD, List.get?_eq_getElem?, List.getElem?_append_left hlt]
      rw [hget]
      exact ih k hlt
    · have hk' : k = qs.length := by omega
      subst hk'
      have hidx : qs.length + 1 - 1 - qs.length = 0 := by omega
      rw [hidx, Nat.testBit_zero]
      have hget : (qs ++ [p]).getD qs.length ⟨0, 0, 0, 0⟩ = p := by
        simp [List.getD, List.getElem?_concat_length]
      rw [hget]
      rcases Bool.eq_false_or_eq_true (f p) with hfp | hfp <;> simp [hfp] <;> omega

theorem bitsOf_eq_zero (f : Pixel → Bool) (ps : List Pixel)
    (h : ∀ p ∈ ps, f p = false) : bitsOf f ps = 0 := by
  induction ps using List.reverseRecOn with
  | nil => simp [bitsOf]
  | append_singleton qs p ih =>
    rw [bitsOf_concat, ih (fun q hq => h q (List.mem_append_left _ hq)),
      h p (List.mem_append_right _ (List.mem_singleton_self p))]
    simp

/-! ### Extremum facts for the block scan -/

theorem minRgb_le_channel {img : Img} {w h x y : Nat} (c : Nat) {i j : Nat}
    (hi : x ≤ i ∧ i < xOffset w x) (hj : y ≤ j ∧ j < yOffset h y) :
    minRgb img w h x y c ≤ channel (img i j) c :=
  foldMin2_le_mem _ _ _ _ i j (mem_colIdx.mpr hi) (mem_rowIdx.mpr hj)

theorem channel_le_maxRgb {img : Img} {w h x y : Nat} (c : Nat) {i j : Nat}
    (hi : x ≤ i ∧ i < xOffset w x) (hj : y ≤ j ∧ j < yOffset h y) :
    channel (img i j) c ≤ maxRgb img w h x y c := by
  unfold maxRgb
  exact foldMax2_ge_mem (colIdx w x) (rowIdx h y)
    (fun i j => channel (img i j) c) 0 i j (mem_colIdx.mpr hi) (mem_rowIdx.mpr hj)

theorem corner_bounds {w h x y : Nat} (hx : x < w) (hy : y < h) :
    (x ≤ x ∧ x < xOffset w x) ∧ (y ≤ y ∧ y < yOffset h y) := by
  refine ⟨⟨le_refl x, ?_⟩, ⟨le_refl y, ?_⟩⟩ <;> simp [xOffset, yOffset] <;> omega

theorem minRgb_le_maxRgb {img : Img} {w h x y : Nat} (hx : x < w) (hy : y < h)
    (c : Nat) : minRgb img w h x y c ≤ maxRgb img w h x y c :=
  le_trans (minRgb_le_channel c (corner_bounds hx hy).1 (corner_bounds hx hy).2)
    (channel_le_maxRgb c (corner_bounds hx hy).1 (corner_bounds hx hy).2)

theorem minRgb_attained {img : Img} {w h x y : Nat} (hx : x < w) (hy : y < h)
    (hv : ValidImg img w h) (c : Nat) :
    ∃ p ∈ blockPixels img w h x y, channel p c = minRgb img w h x y c := by
  rcases foldMin2_attained (colIdx w x) (rowIdx h y)
      (fun i j => channel (img i j) c) 255 with hinit | ⟨i, hi, j, hj, heq⟩
  · refine ⟨img x y, corner_mem_blockPixels hx hy, ?_⟩
    have h1 : minRgb img w h x y c ≤ channel (img x y) c :=
      minRgb_le_channel c (corner_bounds hx hy).1 (corner_bounds hx hy).2
    have h2 : channel (img x y) c ≤ 255 :=
      channel_le_of_mem hv (corner_mem_blockPixels hx hy) c
    have h3 : minRgb img w h x y c = 255 := hinit
    omega
  · rw [mem_colIdx] at hi
    rw [mem_rowIdx] at hj
    exact ⟨img i j, mem_blockPixels.mpr ⟨i, j, hi, hj, rfl⟩, heq.symm⟩

theorem min_pixel_is_background {img : Img} {w h x y : Nat} (hx : x < w)
    (hy : y < h) (hv : ValidImg img w h) :
    ∃ p ∈ blockPixels img w h x y,
      channel p (splitChannel img w h x y) = minRgb img w h x y (splitChannel img w h x y) ∧
      isFg (splitChannel img w h x y) (splitVal img w h x y) p = false := by
  obtain ⟨p, hp, hmin⟩ := minRgb_attained hx hy hv (splitChannel img w h x y)
  refine ⟨p, hp, hmin, ?_⟩
  have hle : channel p (splitChannel img w h x y) ≤ 255 :=
    channel_le_of_mem hv hp _
  have hmod : channel p (splitChannel img w h x y) % 256
      = channel p (splitChannel img w h x y) := Nat.mod_eq_of_lt (by omega)
  have hsv : minRgb img w h x y (splitChannel img w h x y)
      ≤ splitVal img w h x y := Nat.le_add_right _ _
  simp only [isFg, hmod, decide_eq_false_iff_not, not_lt]
  omega

theorem bgPixels_ne_nil {img : Img} {w h x y : Nat} (hx : x < w) (hy : y < h)
    (hv : ValidImg img w h) : bgPixels img w h x y ≠ [] := by
  obtain ⟨p, hp, _, hfg⟩ := min_pixel_is_background hx hy hv
  exact List.ne_nil_of_mem (List.mem_filter.mpr ⟨hp, by simp [hfg]⟩)

theorem avgRgb_eq_nil_iff (l : List Pixel) : avgRgb l = [] ↔ l = [] := by
  unfold avgRgb
  split
  · simp_all
  · simp_all [channelMeans]

/-- A two-pixel, one-row test frame: a bright red pixel then a dim one. -/
def imgA : Img := fun i _ => if i = 0 then ⟨200, 0, 0, 255⟩ else ⟨10, 0, 0, 255⟩

theorem getD_mem {l : List Pixel} {k : Nat} (hk : k < l.length) :
    l.getD k ⟨0, 0, 0, 0⟩ ∈ l := by
  rw [List.getD_eq_getElem?_getD, List.getElem?_eq_getElem hk]
  exact List.getElem_mem hk

/-! ### The claims about the split channel, bitmap and average colors -/

/-- C3: for every non-empty pixel block (the clipped ranges are non-empty
exactly when `x < w` and `y < h`), the minimum never exceeds the maximum on
any channel, the selected split channel's (max−min) range is at least that
of every channel, and every channel strictly earlier in the red, green,
blue scan order than the selected one has strictly smaller range — so ties
resolve to the first channel in that order. -/
theorem split_channel_max_range (img : Img) (w h x y : Nat)
    (hx : x < w) (hy : y < h) :
    splitChannel img w h x y < 3 ∧
    (∀ c, c < 3 → minRgb img w h x y c ≤ maxRgb img w h x y c) ∧
    (∀ c, c < 3 →
      chRange img w h x y c ≤ chRange img w h x y (splitChannel img w h x y)) ∧
    (∀ c, c < splitChannel img w h x y →
      chRange img w h x y c < chRange img w h x y (splitChannel img w h x y)) := by
  obtain ⟨h1, h2, h3, h4⟩ := splitAcc_spec (chRange img w h x y)
  have hsc : chRange img w h x y (splitChannel img w h x y)
      = (splitAcc (chRange img w h x y)).2 := h2.symm
  refine ⟨h1, fun c _ => minRgb_le_maxRgb hx hy c, fun c hc => ?_, fun c hc => ?_⟩
  · rw [hsc]
    exact h3 c hc
  · rw [hsc]
    exact h4 c (by exact hc)

theorem split_channel_max_range_witness :
    (0 : Nat) < 2 ∧ (0 : Nat) < 1 ∧
    (splitChannel imgA 2 1 0 0 < 3 ∧
     (∀ c, c < 3 → minRgb imgA 2 1 0 0 c ≤ maxRgb imgA 2 1 0 0 c) ∧
     (∀ c, c < 3 →
       chRange imgA 2 1 0 0 c ≤ chRange imgA 2 1 0 0 (splitChannel imgA 2 1 0 0)) ∧
     (∀ c, c < splitChannel imgA 2 1 0 0 →
       chRange imgA 2 1 0 0 c < chRange imgA 2 1 0 0 (splitChannel imgA 2 1 0 0))) :=
  ⟨by decide, by decide, split_channel_max_range imgA 2 1 0 0 (by decide) (by decide)⟩

/-- C1: for every non-empty pixel block the threshold is
channel-min + range/2 on the split channel, and the coverage bitmap is the
row-major fold — the pixel visited `k`-th (top row first, left to right)
controls bit `n - 1 - k` of the bitmap (earlier pixels more significant),
that bit is set exactly when the pixel's split-channel value strictly
exceeds the threshold, and a pixel exactly at the threshold leaves its bit
clear (background). -/
theorem coverage_bitmap_row_major (img : Img) (w h x y : Nat)
    (hx : x < w) (hy : y < h) (hv : ValidImg img w h) :
    splitVal img w h x y
      = minRgb img w h x y (splitChannel img w h x y)
        + (maxRgb img w h x y (splitChannel img w h x y)
            - minRgb img w h x y (splitChannel img w h x y)) / 2 ∧
    blockBits img w h x y < 2 ^ (blockPixels img w h x y).length ∧
    (∀ k, k < (blockPixels img w h x y).length →
      (blockBits img w h x y).testBit ((blockPixels img w h x y).length - 1 - k)
        = decide (channel ((blockPixels img w h x y).getD k ⟨0, 0, 0, 0⟩)
            (splitChannel img w h x y) > splitVal img w h x y)) ∧
    (∀ k, k < (blockPixels img w h x y).length →
      channel ((blockPixels img w h x y).getD k ⟨0, 0, 0, 0⟩)
          (splitChannel img w h x y) = splitVal img w h x y →
      (blockBits img w h x y).testBit
        ((blockPixels img w h x y).length - 1 - k) = false) := by
  have hbit : ∀ k, k < (blockPixels img w h x y).length →
      (blockBits img w h x y).testBit ((blockPixels img w h x y).length - 1 - k)
        = decide (channel ((blockPixels img w h x y).getD k ⟨0, 0, 0, 0⟩)
            (splitChannel img w h x y) > splitVal img w h x y) := by
    intro k hk
    have hmem : (blockPixels img w h x y).getD k ⟨0, 0, 0, 0⟩
        ∈ blockPixels img w h x y := getD_mem hk
    have h255 := channel_le_of_mem hv hmem (splitChannel img w h x y)
    have hmod : channel ((blockPixels img w h x y).getD k ⟨0, 0, 0, 0⟩)
        (splitChannel img w h x y) % 256
        = channel ((blockPixels img w h x y).getD k ⟨0, 0, 0, 0⟩)
            (splitChannel img w h x y) := Nat.mod_eq_of_lt (by omega)
    rw [blockBits, bitsOf_testBit _ _ k hk]
    simp only [isFg, hmod]
  refine ⟨?_, ?_, hbit, ?_⟩
  · have h2 := (splitAcc_spec (chRange img w h x y)).2.1
    rw [splitVal, bestSplit, h2]
    rfl
  · rw [blockBits]
    exact bitsOf_lt _ _
  · intro k hk heq
    rw [hbit k hk, heq]
    simp

theorem coverage_bitmap_row_major_witness :
    (0 : Nat) < 2 ∧ (0 : Nat) < 1 ∧ ValidImg imgA 2 1 ∧
    (splitVal imgA 2 1 0 0
      = minRgb imgA 2 1 0 0 (splitChannel imgA 2 1 0 0)
        + (maxRgb imgA 2 1 0 0 (splitChannel imgA 2 1 0 0)
            - minRgb imgA 2 1 0 0 (splitChannel imgA 2 1 0 0)) / 2 ∧
     blockBits imgA 2 1 0 0 < 2 ^ (blockPixels imgA 2 1 0 0).length ∧
     (∀ k, k < (blockPixels imgA 2 1 0 0).length →
       (blockBits imgA 2 1 0 0).testBit ((blockPixels imgA 2 1 0 0).length - 1 - k)
         = decide (channel ((blockPixels imgA 2 1 0 0).getD k ⟨0, 0, 0, 0⟩)
             (splitChannel imgA 2 1 0 0) > splitVal imgA 2 1 0 0)) ∧
     (∀ k, k < (blockPixels imgA 2 1 0 0).length →
       channel ((blockPixels imgA 2 1 0 0).getD k ⟨0, 0, 0, 0⟩)
           (splitChannel imgA 2 1 0 0) = splitVal imgA 2 1 0 0 →
       (blockBits imgA 2 1 0 0).testBit
         ((blockPixels imgA 2 1 0 0).length - 1 - k) = false)) :=
  ⟨by decide, by decide, by decide,
   coverage_bitmap_row_major imgA 2 1 0 0 (by decide) (by decide) (by decide)⟩

/-- C10: for every non-empty pixel block the split-channel minimum is at
most the threshold, a pixel attaining that minimum exists and is classified
background, so the background set is non-empty, its average list is
non-empty, and the averaging step behaves exactly as if the line handling
an empty background average (which mistakenly reassigns the foreground
average) were absent — that branch is unreachable. -/
theorem background_set_nonempty (img : Img) (w h x y : Nat)
    (hx : x < w) (hy : y < h) (hv : ValidImg img w h) :
    minRgb img w h x y (splitChannel img w h x y) ≤ splitVal img w h x y ∧
    (∃ p ∈ blockPixels img w h x y,
      channel p (splitChannel img w h x y)
          = minRgb img w h x y (splitChannel img w h x y) ∧
      isFg (splitChannel img w h x y) (splitVal img w h x y) p = false) ∧
    bgPixels img w h x y ≠ [] ∧
    avgRgb (bgPixels img w h x y) ≠ [] ∧
    finalAvgs (fgPixels img w h x y) (bgPixels img w h x y)
      = ((if avgRgb (fgPixels img w h x y) = [] then [0, 0, 0]
          else avgRgb (fgPixels img w h x y)), avgRgb (bgPixels img w h x y)) := by
  have hbg := bgPixels_ne_nil hx hy hv
  have habg : avgRgb (bgPixels img w h x y) ≠ [] :=
    fun hnil => hbg ((avgRgb_eq_nil_iff _).mp hnil)
  refine ⟨Nat.le_add_right _ _, min_pixel_is_background hx hy hv, hbg, habg, ?_⟩
  simp only [finalAvgs, if_neg habg]

theorem background_set_nonempty_witness :
    (0 : Nat) < 2 ∧ (0 : Nat) < 1 ∧ ValidImg imgA 2 1 ∧
    (minRgb imgA 2 1 0 0 (splitChannel imgA 2 1 0 0) ≤ splitVal imgA 2 1 0 0 ∧
     (∃ p ∈ blockPixels imgA 2 1 0 0,
       channel p (splitChannel imgA 2 1 0 0)
           = minRgb imgA 2 1 0 0 (splitChannel imgA 2 1 0 0) ∧
       isFg (splitChannel imgA 2 1 0 0) (splitVal imgA 2 1 0 0) p = false) ∧
     bgPixels imgA 2 1 0 0 ≠ [] ∧
     avgRgb (bgPixels imgA 2 1 0 0) ≠ [] ∧
     finalAvgs (fgPixels imgA 2 1 0 0) (bgPixels imgA 2 1 0 0)
       = ((if avgRgb (fgPixels imgA 2 1 0 0) = [] then [0, 0, 0]
           else avgRgb (fgPixels imgA 2 1 0 0)), avgRgb (bgPixels imgA 2 1 0 0))) :=
  ⟨by decide, by decide, by decide,
   background_set_nonempty imgA 2 1 0 0 (by decide) (by decide) (by decide)⟩

/-- C2: for every non-empty pixel block, the averaging step produces the
channel-wise (floor) mean of the background pixels as the background color
— the background set is never empty — and the foreground color is the
channel-wise mean of the foreground pixels, except that an empty foreground
set (the only set that can be empty) gets black (0, 0, 0); only the empty
set's color is defaulted. -/
theorem foreground_background_means (img : Img) (w h x y : Nat)
    (hx : x < w) (hy : y < h) (hv : ValidImg img w h) :
    bgPixels img w h x y ≠ [] ∧
    (finalAvgs (fgPixels img w h x y) (bgPixels img w h x y)).2
        = channelMeans (bgPixels img w h x y) ∧
    (finalAvgs (fgPixels img w h x y) (bgPixels img w h x y)).1
        = (if fgPixels img w h x y = [] then [0, 0, 0]
           else channelMeans (fgPixels img w h x y)) := by
  have hbg := bgPixels_ne_nil hx hy hv
  have habg : avgRgb (bgPixels img w h x y) = channelMeans (bgPixels img w h x y) := by
    rw [avgRgb, if_neg hbg]
  have habg' : avgRgb (bgPixels img w h x y) ≠ [] := by
    rw [habg]
    simp [channelMeans]
  refine ⟨hbg, ?_, ?_⟩
  · simp only [finalAvgs, habg]
  · simp only [finalAvgs, if_neg habg']
    by_cases hfg : fgPixels img w h x y = []
    · rw [avgRgb, if_pos hfg, if_pos rfl, if_pos hfg]
    · rw [avgRgb, if_neg hfg, if_neg hfg,
        if_neg (by simp [channelMeans] : ¬(channelMeans (fgPixels img w h x y) = []))]

theorem foreground_background_means_witness :
    (0 : Nat) < 2 ∧ (0 : Nat) < 1 ∧ ValidImg imgA 2 1 ∧
    (bgPixels imgA 2 1 0 0 ≠ [] ∧
     (finalAvgs (fgPixels imgA 2 1 0 0) (bgPixels imgA 2 1 0 0)).2
         = channelMeans (bgPixels imgA 2 1 0 0) ∧
     (finalAvgs (fgPixels imgA 2 1 0 0) (bgPixels imgA 2 1 0 0)).1
         = (if fgPixels imgA 2 1 0 0 = [] then [0, 0, 0]
            else channelMeans (fgPixels imgA 2 1 0 0))) :=
  ⟨by decide, by decide, by decide,
   foreground_background_means imgA 2 1 0 0 (by decide) (by decide) (by decide)⟩

set_option maxRecDepth 10000

/-- C4: a block whose coverage bitmap equals a registry pattern exactly gets
that pattern's glyph from the matching loop, with best Hamming distance 0
and the inversion flag false.  (No registry pattern is the 32-bit complement
of another, so no inverted candidate ties at distance 0 first.) -/
theorem exact_pattern_match (e : Nat × Char) (he : e ∈ BITMAPS) :
    matchLoop e.1 = (0, some e.2, false) := by
  revert e he
  decide

theorem exact_pattern_match_witness :
    ((0x0000ffff : Nat), Char.ofNat 0x2584) ∈ BITMAPS ∧
    matchLoop 0x0000ffff = (0, some (Char.ofNat 0x2584), false) :=
  ⟨by decide, exact_pattern_match (0x0000ffff, Char.ofNat 0x2584) (by decide)⟩

/-! ### The matching loop tracks the minimum distance -/

theorem matchStep_fst (bits : Nat) (st : Nat × Option Char × Bool)
    (e : Nat × Char) :
    (matchStep bits st e).1
      = min (min st.1 (popCount (e.1 ^^^ bits)))
          (popCount ((0xffffffff ^^^ e.1) ^^^ bits)) := by
  unfold matchStep
  dsimp only
  split <;> split <;> omega

theorem matchFold_fst (bits : Nat) (L : List (Nat × Char))
    (st : Nat × Option Char × Bool) :
    (L.foldl (matchStep bits) st).1
      = (L.flatMap (pairDists bits)).foldl min st.1 := by
  induction L generalizing st with
  | nil => rfl
  | cons e L ih =>
    rw [List.foldl_cons, ih, List.flatMap_cons]
    simp only [pairDists, List.foldl_append, List.foldl_cons, List.foldl_nil,
      matchStep_fst]

theorem matchLoop_fst (bits : Nat) : (matchLoop bits).1 = minDist bits :=
  matchFold_fst bits BITMAPS (maxint, none, false)

/-- C5: the best distance tracked by the matching loop is exactly the
minimum over all registry patterns and both orientations of the Hamming
distance to the coverage bitmap; the density-ramp fallback is taken exactly
when that minimum exceeds 10, in which case the glyph is the 5-character
shading ramp entry at index `min(4, fgCount * 5 / 32)` and the inversion
flag is false (so no color swap occurs); otherwise the loop's winner and
flag are kept. -/
theorem density_ramp_fallback (bits fgCount : Nat) :
    (matchLoop bits).1 = minDist bits ∧
    (10 < minDist bits →
      selectGlyph bits fgCount
        = (shadeRamp.getD (min 4 (fgCount * 5 / 32)) ' ', false)) ∧
    (minDist bits ≤ 10 →
      selectGlyph bits fgCount
        = ((matchLoop bits).2.1.getD ' ', (matchLoop bits).2.2)) := by
  refine ⟨matchLoop_fst bits, fun hgt => ?_, fun hle => ?_⟩
  · rw [selectGlyph, if_pos (by rw [matchLoop_fst]; omega)]
    rfl
  · rw [selectGlyph, if_neg (by rw [matchLoop_fst]; omega)]

theorem density_ramp_fallback_witness :
    10 < minDist 0x5a5a5a5a ∧
    (matchLoop 0x5a5a5a5a).1 = minDist 0x5a5a5a5a ∧
    selectGlyph 0x5a5a5a5a 7
      = (shadeRamp.getD (min 4 (7 * 5 / 32)) ' ', false) :=
  ⟨by decide, (density_ramp_fallback 0x5a5a5a5a 7).1,
   (density_ramp_fallback 0x5a5a5a5a 7).2.1 (by decide)⟩

/-! ### The all-black shortcut -/

theorem maxRgb_eq_zero {img : Img} {w h x y : Nat} (c : Nat)
    (hb : ∀ p ∈ blockPixels img w h x y, p.r = 0 ∧ p.g = 0 ∧ p.b = 0) :
    maxRgb img w h x y c = 0 := by
  have hch : ∀ i j, i ∈ colIdx w x → j ∈ rowIdx h y → channel (img i j) c = 0 := by
    intro i j hi hj
    have hp : img i j ∈ blockPixels img w h x y :=
      mem_blockPixels.mpr ⟨i, j, mem_colIdx.mp hi, mem_rowIdx.mp hj, rfl⟩
    obtain ⟨h1, h2, h3⟩ := hb _ hp
    match c with
    | 0 => exact h1
    | 1 => exact h2
    | n + 2 => exact h3
  rcases foldMax2_attained (colIdx w x) (rowIdx h y)
      (fun i j => channel (img i j) c) 0 with hinit | ⟨i, hi, j, hj, heq⟩
  · exact hinit
  · rw [maxRgb]
    rw [heq]
    exact hch i j hi hj

theorem minRgb_eq_zero {img : Img} {w h x y : Nat} (hx : x < w) (hy : y < h)
    (hb : ∀ p ∈ blockPixels img w h x y, p.r = 0 ∧ p.g = 0 ∧ p.b = 0)
    (c : Nat) : minRgb img w h x y c = 0 := by
  have hle : minRgb img w h x y c ≤ channel (img x y) c :=
    minRgb_le_channel c (corner_bounds hx hy).1 (corner_bounds hx hy).2
  obtain ⟨h1, h2, h3⟩ := hb _ (corner_mem_blockPixels hx hy)
  have : channel (img x y) c = 0 := by
    match c with
    | 0 => exact h1
    | 1 => exact h2
    | n + 2 => exact h3
  omega

theorem splitAcc_zero (r : Nat → Nat) (h0 : r 0 = 0) (h1 : r 1 = 0)
    (h2 : r 2 = 0) : splitAcc r = (0, 0) := by
  simp [splitAcc, h0, h1, h2]

/-- C6: a block all of whose pixels are (0, 0, 0) black — whatever its
width (1–4) and height (1–8) — produces the all-black shortcut cell: a
plain style reset followed by a single space, with no color escapes. -/
theorem all_black_shortcut (img : Img) (w h x y : Nat) (hx : x < w)
    (hy : y < h)
    (hb : ∀ p ∈ blockPixels img w h x y, p.r = 0 ∧ p.g = 0 ∧ p.b = 0) :
    handle_pixel img w h x y = "\x1b[0m " := by
  have hacc : splitAcc (chRange img w h x y) = (0, 0) := by
    refine splitAcc_zero _ ?_ ?_ ?_ <;>
      simp [chRange, maxRgb_eq_zero _ hb, minRgb_eq_zero hx hy hb]
  have hsc : splitChannel img w h x y = 0 := by rw [splitChannel, hacc]
  have hsv : splitVal img w h x y = 0 := by
    rw [splitVal, bestSplit, hacc, hsc, minRgb_eq_zero hx hy hb]
    rfl
  have hfgf : ∀ p ∈ blockPixels img w h x y,
      isFg (splitChannel img w h x y) (splitVal img w h x y) p = false := by
    intro p hp
    obtain ⟨h1, _, _⟩ := hb _ hp
    simp [isFg, hsc, hsv, channel, h1]
  have hbits : blockBits img w h x y = 0 := by
    rw [blockBits]
    exact bitsOf_eq_zero _ _ hfgf
  have hfg : fgPixels img w h x y = [] := by
    rw [fgPixels, List.filter_eq_nil_iff]
    intro p hp
    simp [hfgf p hp]
  have hbg : bgPixels img w h x y = blockPixels img w h x y := by
    rw [bgPixels, List.filter_eq_self]
    intro p hp
    simp [hfgf p hp]
  have hbgne : blockPixels img w h x y ≠ [] := blockPixels_ne_nil hx hy
  have hmeans : channelMeans (blockPixels img w h x y) = [0, 0, 0] := by
    have hr : ((blockPixels img w h x y).map Pixel.r).sum = 0 :=
      List.sum_eq_zero (by
        intro v hv
        obtain ⟨p, hp, rfl⟩ := List.mem_map.mp hv
        exact (hb p hp).1)
    have hg : ((blockPixels img w h x y).map Pixel.g).sum = 0 :=
      List.sum_eq_zero (by
        intro v hv
        obtain ⟨p, hp, rfl⟩ := List.mem_map.mp hv
        exact (hb p hp).2.1)
    have hbl : ((blockPixels img w h x y).map Pixel.b).sum = 0 :=
      List.sum_eq_zero (by
        intro v hv
        obtain ⟨p, hp, rfl⟩ := List.mem_map.mp hv
        exact (hb p hp).2.2)
    simp [channelMeans, hr, hg, hbl]
  have havg : finalAvgs (fgPixels img w h x y) (bgPixels img w h x y)
      = ([0, 0, 0], [0, 0, 0]) := by
    rw [hfg, hbg]
    have habg : avgRgb (blockPixels img w h x y) = [0, 0, 0] := by
      rw [avgRgb, if_neg hbgne, hmeans]
    rw [avgRgb, if_neg hbgne, hmeans] at habg
    simp [finalAvgs, avgRgb, if_neg hbgne, hmeans]
  have hsel : selectGlyph (blockBits img w h x y)
      (fgPixels img w h x y).length = (' ', false) := by
    rw [hbits, hfg]
    decide
  rw [handle_pixel, havg, hsel]
  rfl

/-- A uniformly black test frame. -/
def imgBlack : Img := fun _ _ => ⟨0, 0, 0, 255⟩

theorem all_black_shortcut_witness :
    (0 : Nat) < 4 ∧ (0 : Nat) < 8 ∧
    (∀ p ∈ blockPixels imgBlack 4 8 0 0, p.r = 0 ∧ p.g = 0 ∧ p.b = 0) ∧
    handle_pixel imgBlack 4 8 0 0 = "\x1b[0m " :=
  ⟨by decide, by decide, by decide,
   all_black_shortcut imgBlack 4 8 0 0 (by decide) (by decide) (by decide)⟩

/-! ### AspectFitter -/

theorem round_nonneg_of_nonneg {q : ℚ} (hq : 0 ≤ q) : 0 ≤ round q := by
  by_contra hcon
  push_neg at hcon
  have h1 : round q ≤ -1 := by omega
  have h2 : (round q : ℚ) ≤ -1 := by exact_mod_cast h1
  have h3 := sub_half_lt_round q
  linarith

theorem round_le_int {q : ℚ} {b : Int} (hqb : q ≤ (b : ℚ)) : round q ≤ b := by
  by_contra hcon
  push_neg at hcon
  have h1 : b + 1 ≤ round q := by omega
  have h2 : ((b : ℚ) + 1) ≤ (round q : ℚ) := by exact_mod_cast h1
  have h3 := round_le_add_half q
  linarith

/-- C7 counterexample: bounding box 1×2 and source 3×1 make
`calculate_borders` return height 0, refuting "the returned width and
height are positive integers". -/
theorem calculate_borders_height_zero :
    (calculate_borders 1 2 3 1).2 = 0 ∧ ¬(0 < (calculate_borders 1 2 3 1).2) := by
  constructor <;> norm_num [calculate_borders, round_eq]

/-- C7 (amended): for positive bounds and source dimensions the result is a
pair of nonnegative integers, each at most its bound (a dimension can round
to 0 for extreme aspect ratios), and the pair preserves the source aspect
ratio to within half an integer rounding unit:
`2 * |height·ow − width·oh| ≤ max ow oh`. -/
theorem calculate_borders_fit (bw bh ow oh : Nat) (hbw : 0 < bw)
    (hbh : 0 < bh) (how : 0 < ow) (hoh : 0 < oh) :
    0 ≤ (calculate_borders bw bh ow oh).1 ∧
    (calculate_borders bw bh ow oh).1 ≤ (bw : Int) ∧
    0 ≤ (calculate_borders bw bh ow oh).2 ∧
    (calculate_borders bw bh ow oh).2 ≤ (bh : Int) ∧
    2 * |(calculate_borders bw bh ow oh).2 * (ow : Int)
          - (calculate_borders bw bh ow oh).1 * (oh : Int)|
      ≤ ((max ow oh : Nat) : Int) := by
  have how' : (0 : ℚ) < (ow : ℚ) := by exact_mod_cast how
  have hoh' : (0 : ℚ) < (oh : ℚ) := by exact_mod_cast hoh
  have hbw' : (0 : ℚ) < (bw : ℚ) := by exact_mod_cast hbw
  have hbh' : (0 : ℚ) < (bh : ℚ) := by exact_mod_cast hbh
  by_cases hc : ((bw : ℚ) / (bh : ℚ)) < ((ow : ℚ) / (oh : ℚ))
  · have hcalc : calculate_borders bw bh ow oh
        = (min (round (((bw : ℚ) / ((ow : ℚ) / (oh : ℚ))) * ((ow : ℚ) / (oh : ℚ)))) (bw : Int),
           min (round ((bw : ℚ) / ((ow : ℚ) / (oh : ℚ)))) (bh : Int)) := by
      rw [calculate_borders, if_pos hc]
    have hwq : ((bw : ℚ) / ((ow : ℚ) / (oh : ℚ))) * ((ow : ℚ) / (oh : ℚ)) = (bw : ℚ) := by
      field_simp
    have hq : (bw : ℚ) / ((ow : ℚ) / (oh : ℚ)) = (bw : ℚ) * (oh : ℚ) / (ow : ℚ) := by
      field_simp
    have hqpos : 0 ≤ (bw : ℚ) * (oh : ℚ) / (ow : ℚ) := by positivity
    have hqlt : (bw : ℚ) * (oh : ℚ) / (ow : ℚ) < (bh : ℚ) := by
      rw [div_lt_iff how']
      rw [div_lt_div_iff hbh' hoh'] at hc
      linarith
    have hrle : round ((bw : ℚ) * (oh : ℚ) / (ow : ℚ)) ≤ (bh : Int) :=
      round_le_int (le_of_lt hqlt)
    have hfst : (calculate_borders bw bh ow oh).1 = (bw : Int) := by
      rw [hcalc]
      simp [hwq, round_natCast]
    have hsnd : (calculate_borders bw bh ow oh).2
        = round ((bw : ℚ) * (oh : ℚ) / (ow : ℚ)) := by
      rw [hcalc]
      simp only [hq]
      exact min_eq_left hrle
    refine ⟨?_, ?_, ?_, ?_, ?_⟩
    · rw [hfst]
      exact_mod_cast Nat.zero_le bw
    · rw [hfst]
    · rw [hsnd]
      exact round_nonneg_of_nonneg hqpos
    · rw [hsnd]
      exact hrle
    · rw [hfst, hsnd]
      have habs := abs_sub_round ((bw : ℚ) * (oh : ℚ) / (ow : ℚ))
      have hkey : (2 : ℚ) * |(round ((bw : ℚ) * (oh : ℚ) / (ow : ℚ)) : ℚ) * (ow : ℚ)
          - (bw : ℚ) * (oh : ℚ)| ≤ (ow : ℚ) := by
        have hmul : (round ((bw : ℚ) * (oh : ℚ) / (ow : ℚ)) : ℚ) * (ow : ℚ)
            - (bw : ℚ) * (oh : ℚ)
            = ((round ((bw : ℚ) * (oh : ℚ) / (ow : ℚ)) : ℚ)
                - (bw : ℚ) * (oh : ℚ) / (ow : ℚ)) * (ow : ℚ) := by
          field_simp
        rw [hmul, abs_mul, abs_of_pos how', abs_sub_comm]
        nlinarith
      have hcast : ((2 * |round ((bw : ℚ) * (oh : ℚ) / (ow : ℚ)) * (ow : Int)
          - (bw : Int) * (oh : Int)| : Int) : ℚ)
          = 2 * |(round ((bw : ℚ) * (oh : ℚ) / (ow : ℚ)) : ℚ) * (ow : ℚ)
              - (bw : ℚ) * (oh : ℚ)| := by
        push_cast
        ring_nf
      have hle : ((2 * |round ((bw : ℚ) * (oh : ℚ) / (ow : ℚ)) * (ow : Int)
          - (bw : Int) * (oh : Int)| : Int) : ℚ) ≤ ((ow : Int) : ℚ) := by
        rw [hcast]
        exact_mod_cast hkey
      have : 2 * |round ((bw : ℚ) * (oh : ℚ) / (ow : ℚ)) * (ow : Int)
          - (bw : Int) * (oh : Int)| ≤ (ow : Int) := by exact_mod_cast hle
      have hmax : (ow : Int) ≤ ((max ow oh : Nat) : Int) := by
        exact_mod_cast Nat.le_max_left ow oh
      omega
  · have hcalc : calculate_borders bw bh ow oh
        = (min (round ((bh : ℚ) * ((ow : ℚ) / (oh : ℚ)))) (bw : Int),
           min (round (((oh : ℚ) / (ow : ℚ)) * ((bh : ℚ) * ((ow : ℚ) / (oh : ℚ))))) (bh : Int)) := by
      rw [calculate_borders, if_neg hc]
    have hhq : ((oh : ℚ) / (ow : ℚ)) * ((bh : ℚ) * ((ow : ℚ) / (oh : ℚ))) = (bh : ℚ) := by
      field_simp
      ring
    have hq : (bh : ℚ) * ((ow : ℚ) / (oh : ℚ)) = (bh : ℚ) * (ow : ℚ) / (oh : ℚ) := by
      ring
    have hqpos : 0 ≤ (bh : ℚ) * (ow : ℚ) / (oh : ℚ) := by positivity
    have hqle : (bh : ℚ) * (ow : ℚ) / (oh : ℚ) ≤ (bw : ℚ) := by
      rw [div_le_iff hoh']
      rw [not_lt, div_le_div_iff hoh' hbh'] at hc
      linarith
    have hrle : round ((bh : ℚ) * (ow : ℚ) / (oh : ℚ)) ≤ (bw : Int) :=
      round_le_int hqle
    have hfst : (calculate_borders bw bh ow oh).1
        = round ((bh : ℚ) * (ow : ℚ) / (oh : ℚ)) := by
      rw [hcalc]
      simp only [hq]
      exact min_eq_left hrle
    have hsnd : (calculate_borders bw bh ow oh).2 = (bh : Int) := by
      rw [hcalc]
      simp [hhq, round_natCast]
    refine ⟨?_, ?_, ?_, ?_, ?_⟩
    · rw [hfst]
      exact round_nonneg_of_nonneg hqpos
    · rw [hfst]
      exact hrle
    · rw [hsnd]
      exact_mod_cast Nat.zero_le bh
    · rw [hsnd]
    · rw [hfst, hsnd]
      have habs := abs_sub_round ((bh : ℚ) * (ow : ℚ) / (oh : ℚ))
      have hkey : (2 : ℚ) * |(bh : ℚ) * (ow : ℚ)
          - (round ((bh : ℚ) * (ow : ℚ) / (oh : ℚ)) : ℚ) * (oh : ℚ)| ≤ (oh : ℚ) := by
        have hmul : (bh : ℚ) * (ow : ℚ)
            - (round ((bh : ℚ) * (ow : ℚ) / (oh : ℚ)) : ℚ) * (oh : ℚ)
            = ((bh : ℚ) * (ow : ℚ) / (oh : ℚ)
                - (round ((bh : ℚ) * (ow : ℚ) / (oh : ℚ)) : ℚ)) * (oh : ℚ) := by
          field_simp
          ring
        rw [hmul, abs_mul, abs_of_pos hoh']
        nlinarith
      have hcast : ((2 * |(bh : Int) * (ow : Int)
          - round ((bh : ℚ) * (ow : ℚ) / (oh : ℚ)) * (oh : Int)| : Int) : ℚ)
          = 2 * |(bh : ℚ) * (ow : ℚ)
              - (round ((bh : ℚ) * (ow : ℚ) / (oh : ℚ)) : ℚ) * (oh : ℚ)| := by
        push_cast
        ring_nf
      have hle : ((2 * |(bh : Int) * (ow : Int)
          - round ((bh : ℚ) * (ow : ℚ) / (oh : ℚ)) * (oh : Int)| : Int) : ℚ)
          ≤ ((oh : Int) : ℚ) := by
        rw [hcast]
        exact_mod_cast hkey
      have : 2 * |(bh : Int) * (ow : Int)
          - round ((bh : ℚ) * (ow : ℚ) / (oh : ℚ)) * (oh : Int)| ≤ (oh : Int) := by
        exact_mod_cast hle
      have hmax : (oh : Int) ≤ ((max ow oh : Nat) : Int) := by
        exact_mod_cast Nat.le_max_right ow oh
      omega

theorem calculate_borders_fit_witness :
    (0 : Nat) < 80 ∧ (0 : Nat) < 24 ∧ (0 : Nat) < 320 ∧ (0 : Nat) < 200 ∧
    (0 ≤ (calculate_borders 80 24 320 200).1 ∧
     (calculate_borders 80 24 320 200).1 ≤ (80 : Int) ∧
     0 ≤ (calculate_borders 80 24 320 200).2 ∧
     (calculate_borders 80 24 320 200).2 ≤ (24 : Int) ∧
     2 * |(calculate_borders 80 24 320 200).2 * (320 : Int)
           - (calculate_borders 80 24 320 200).1 * (200 : Int)|
       ≤ ((max 320 200 : Nat) : Int)) :=
  ⟨by decide, by decide, by decide, by decide,
   calculate_borders_fit 80 24 320 200 (by decide) (by decide) (by decide) (by decide)⟩

/-! ### Playback -/

/-- C8 (divergence): a rendered frame of pixel height `h` has `⌈h / 8⌉` text
rows (one per block-row), but the cursor-rewind escape interpolates the
pixel height `new_size[1]` itself.  For any 8-pixel-tall resized frame the
frame has exactly one text row while the rewind escape moves the cursor up
8 rows. -/
theorem rewind_uses_pixel_height (img : Img) (w : Nat) (sep : String) :
    rewindCount 8 = 8 ∧
    (frameLines img w 8).length = 1 ∧
    rewindCount 8 ≠ (frameLines img w 8).length ∧
    framePrint 8 (frame_to_ansi img w 8) sep
      = "\r\x1b[8A" ++ frame_to_ansi img w 8 ++ sep := by
  have h1 : ("\r\x1b[" ++ toString (rewindCount 8) ++ "A") = "\r\x1b[8A" := by
    decide
  refine ⟨rfl, ?_, ?_, by rw [framePrint, h1]⟩ <;>
    simp [frameLines, blockRowStarts, List.length_map, List.length_range',
      rewindCount]

/-- C9: whether playback is interrupted during some frame's delay or runs
to completion, the terminal-restoration escapes are emitted exactly once,
they are the last output of the playback block (so they precede process
termination), and the exit status is 128 exactly on interrupt and 0 on
normal completion. -/
theorem playback_restores_terminal (n : Nat) (i : Option Nat) :
    (playback n i).1.count PlayEvent.restore = 1 ∧
    (playback n i).1.getLast? = some PlayEvent.restore ∧
    (playback n i).2 = (if i.isSome then 128 else 0) := by
  have hbody : ∀ l : List Nat,
      (l.map PlayEvent.frameOut).count PlayEvent.restore = 0 := by
    intro l
    rw [List.count_eq_zero]
    intro hmem
    obtain ⟨k, _, hk⟩ := List.mem_map.mp hmem
    exact PlayEvent.noConfusion hk
  refine ⟨?_, ?_, ?_⟩
  · cases i with
    | none =>
      simp only [playback, runWithRestoredTerminal, interactiveLoop,
        List.count_append, hbody]
      rfl
    | some k =>
      simp only [playback, runWithRestoredTerminal, interactiveLoop,
        List.count_append, hbody]
      rfl
  · cases i with
    | none =>
      simp [playback, runWithRestoredTerminal, interactiveLoop]
    | some k =>
      simp [playback, runWithRestoredTerminal, interactiveLoop]
  · cases i with
    | none => rfl
    | some k => rfl
